import Mathlib

/-!
Verification of the Brent oil change-point analysis pipeline
(`scripts/brent_oil_change_point_model.py` and `backend/app.py`).

The script loads a dated price series, computes log returns, fits a
Bayesian multiple-change-point model, extracts modal break indices from
the posterior draws, quantifies per-segment impacts, and associates the
estimated change-point dates with a curated event table inside a ±7-day
window.  The Flask backend re-serves the persisted change-point table.

This file gives a shallow embedding of those computations: prices are
rationals (exact stand-ins for the floating-point inputs), log returns
live in `ℝ` via `Real.log`, dates are integers counting days (the event
window arithmetic only uses day differences), and posterior draws of the
discrete break indices are natural numbers.
-/

set_option autoImplicit false

namespace BrentCP

/-! ### Series preprocessor: log returns (`log_returns = np.diff(np.log(prices))`) -/

/-- `np.diff`: adjacent differences `a[i+1] - a[i]`. -/
def diff (l : List ℝ) : List ℝ :=
  (l.zip l.tail).map (fun p => p.2 - p.1)

/-- `log_returns = np.diff(np.log(prices))` (line 70 of the script):
elementwise natural log followed by adjacent differences. -/
noncomputable def log_returns (prices : List ℚ) : List ℝ :=
  diff (List.map (fun p : ℚ => Real.log ((p : ℝ))) prices)

theorem length_diff (l : List ℝ) : (diff l).length = l.length - 1 := by
  simp [diff, List.length_zip, List.length_tail]

theorem length_log_returns (prices : List ℚ) :
    (log_returns prices).length = prices.length - 1 := by
  simp [log_returns, length_diff]

theorem diff_get (l : List ℝ) (i : ℕ) (hi : i < (diff l).length) :
    (diff l).get ⟨i, hi⟩ =
      l.get ⟨i + 1, by simp [length_diff] at hi; omega⟩ -
      l.get ⟨i, by simp [length_diff] at hi; omega⟩ := by
  simp only [diff, List.get_eq_getElem, List.getElem_map, List.getElem_zip]
  rw [List.getElem_tail]

/-- Partial sums of adjacent differences telescope. -/
theorem sum_take_diff (l : List ℝ) :
    ∀ (k : ℕ) (hk : k < l.length),
      ((diff l).take k).sum =
        l.get ⟨k, hk⟩ - l.get ⟨0, by omega⟩
  | 0, _ => by simp
  | (k + 1), h => by
    have hk : k < l.length := by omega
    have hkd : k < (diff l).length := by
      rw [length_diff]; omega
    have ih := sum_take_diff l k hk
    rw [List.take_succ, List.getElem?_eq_getElem hkd]
    simp only [Option.toList_some, List.sum_append, List.sum_cons, List.sum_nil,
      add_zero]
    rw [ih]
    have hd := diff_get l k hkd
    simp only [List.get_eq_getElem] at hd ⊢
    rw [hd]
    ring

/-- C1.  For strictly positive price series, the log-return series is one
element shorter than the price series, and exponentiating each cumulative
sum of log returns reconstructs the price ratio `price[i+1] / price[0]`
exactly (the real-number form of the floating-point round-trip). -/
theorem log_returns_round_trip (prices : List ℚ)
    (hpos : ∀ p ∈ prices, 0 < p) :
    (log_returns prices).length = prices.length - 1 ∧
    ∀ i : ℕ, ∀ hi : i + 1 < prices.length,
      Real.exp (((log_returns prices).take (i + 1)).sum) =
        (prices.get ⟨i + 1, hi⟩ : ℝ) / (prices.get ⟨0, by omega⟩ : ℝ) := by
  constructor
  · exact length_log_returns prices
  · intro i hi
    set L : List ℝ := List.map (fun p : ℚ => Real.log ((p : ℝ))) prices with hL
    have hlen : L.length = prices.length := by simp [hL]
    have hsum :
        ((log_returns prices).take (i + 1)).sum =
          L.get ⟨i + 1, by omega⟩ - L.get ⟨0, by omega⟩ :=
      sum_take_diff L (i + 1) (by omega)
    have hgetL : ∀ (j : ℕ) (hj : j < prices.length),
        L.get ⟨j, by omega⟩ = Real.log ((prices.get ⟨j, hj⟩ : ℚ) : ℝ) := by
      intro j hj
      simp [hL]
    rw [log_returns] at hsum ⊢
    rw [hsum, hgetL (i + 1) hi, hgetL 0 (by omega), Real.exp_sub]
    have h1 : (0 : ℝ) < ((prices.get ⟨i + 1, hi⟩ : ℚ) : ℝ) := by
      exact_mod_cast hpos _ (List.get_mem _ _ _)
    have h0 : (0 : ℝ) < ((prices.get ⟨0, by omega⟩ : ℚ) : ℝ) := by
      exact_mod_cast hpos _ (List.get_mem _ _ _)
    rw [Real.exp_log h1, Real.exp_log h0]

/-- Witness for `log_returns_round_trip` at the concrete series `[1, 2, 4]`. -/
theorem log_returns_round_trip_witness :
    (∀ p ∈ [(1 : ℚ), 2, 4], 0 < p) ∧
    ((log_returns [(1 : ℚ), 2, 4]).length = [(1 : ℚ), 2, 4].length - 1 ∧
     ∀ i : ℕ, ∀ hi : i + 1 < [(1 : ℚ), 2, 4].length,
       Real.exp (((log_returns [(1 : ℚ), 2, 4]).take (i + 1)).sum) =
         ([(1 : ℚ), 2, 4].get ⟨i + 1, hi⟩ : ℝ) /
           ([(1 : ℚ), 2, 4].get ⟨0, by omega⟩ : ℝ)) :=
  ⟨by decide, log_returns_round_trip [1, 2, 4] (by decide)⟩

/-! ### Event associator (lines 155-172 of the script)

Dates are modelled as integer day numbers, so `pd.Timedelta(days=7)`
arithmetic becomes integer addition.  The sentinel row written when no
event qualifies carries `Event_Date = 'N/A'` (modelled as `none`) and the
fixed description string from the source. -/

/-- One row of the curated event table (`events.csv`). -/
structure Event where
  eventDate : ℤ
  eventDescription : String
  deriving DecidableEq, Repr

/-- One output row of `change_point_events` / `change_points.csv`.
`eventDate = none` models the `'N/A'` sentinel string. -/
structure CPEventRecord where
  changePointDate : ℤ
  eventDate : Option ℤ
  eventDescription : String
  deriving DecidableEq, Repr

/-- The filter `(events['Event_Date'] >= cp_date - window) &
(events['Event_Date'] <= cp_date + window)` with `window = 7` days. -/
def inWindow (cp : ℤ) (e : Event) : Bool :=
  decide (cp - 7 ≤ e.eventDate ∧ e.eventDate ≤ cp + 7)

/-- Sentinel row appended when `relevant_events` is empty. -/
def noEventRecord (cp : ℤ) : CPEventRecord :=
  { changePointDate := cp, eventDate := none,
    eventDescription := "No event within ±7 days" }

/-- One iteration of the association loop: filter the event table to the
±7-day window and take `relevant_events.iloc[0]` (the first row in table
order) if the filter is non-empty, else the sentinel row. -/
def associateCp (events : List Event) (cp : ℤ) : CPEventRecord :=
  match (events.filter (inWindow cp)).head? with
  | some e =>
      { changePointDate := cp, eventDate := some e.eventDate,
        eventDescription := e.eventDescription }
  | none => noEventRecord cp

/-- `change_point_events`: the association loop over all change-point
dates, producing one record per date in order. -/
def change_point_events (events : List Event) (cps : List ℤ) :
    List CPEventRecord :=
  cps.map (associateCp events)

theorem associateCp_of_filter_nil (events : List Event) (cp : ℤ)
    (h : events.filter (inWindow cp) = []) :
    associateCp events cp = noEventRecord cp := by
  unfold associateCp
  rw [h]
  rfl

theorem associateCp_of_head?_some (events : List Event) (cp : ℤ)
    (a : Event) (h : (events.filter (inWindow cp)).head? = some a) :
    associateCp events cp =
      { changePointDate := cp, eventDate := some a.eventDate,
        eventDescription := a.eventDescription } := by
  unfold associateCp
  rw [h]

theorem head_mem_of_head?_eq {α : Type} {l : List α} {a : α}
    (h : l.head? = some a) : a ∈ l := by
  cases l with
  | nil => simp at h
  | cons x xs =>
    simp only [List.head?_cons, Option.some.injEq] at h
    subst h
    exact List.mem_cons_self x xs

theorem head_le_of_sorted {l : List Event} {a : Event}
    (hs : l.Pairwise (fun x y => x.eventDate ≤ y.eventDate))
    (h : l.head? = some a) :
    ∀ b ∈ l, a.eventDate ≤ b.eventDate := by
  cases l with
  | nil => simp at h
  | cons x xs =>
    simp only [List.head?_cons, Option.some.injEq] at h
    subst h
    intro b hb
    rcases List.mem_cons.mp hb with h1 | h2
    · subst h1; exact le_refl _
    · exact (List.pairwise_cons.mp hs).1 b h2

/-- C2.  For every ascending-by-date event table and every list of
change-point dates, the associator emits exactly one record per
change-point date, in order; when at least one event lies in the
inclusive ±7-day window the record carries the first qualifying event in
the table's ascending-date order (its date is minimal among qualifying
events, though not necessarily nearest to the change point); when no
event qualifies the record is the sentinel (no event date, fixed
placeholder description), and the function is total. -/
theorem change_point_events_spec (events : List Event) (cps : List ℤ)
    (hsorted : events.Pairwise (fun x y => x.eventDate ≤ y.eventDate)) :
    (change_point_events events cps).length = cps.length ∧
    ∀ (k : ℕ) (hk : k < cps.length),
      ∃ hk2 : k < (change_point_events events cps).length,
        (change_point_events events cps).get ⟨k, hk2⟩ =
          associateCp events (cps.get ⟨k, hk⟩) ∧
        ((∀ e ∈ events, inWindow (cps.get ⟨k, hk⟩) e = false) →
          (change_point_events events cps).get ⟨k, hk2⟩ =
            noEventRecord (cps.get ⟨k, hk⟩)) ∧
        (∀ e0 ∈ events, inWindow (cps.get ⟨k, hk⟩) e0 = true →
          ∃ e ∈ events, inWindow (cps.get ⟨k, hk⟩) e = true ∧
            (change_point_events events cps).get ⟨k, hk2⟩ =
              { changePointDate := cps.get ⟨k, hk⟩,
                eventDate := some e.eventDate,
                eventDescription := e.eventDescription } ∧
            ∀ e2 ∈ events, inWindow (cps.get ⟨k, hk⟩) e2 = true →
              e.eventDate ≤ e2.eventDate) := by
  refine ⟨by simp [change_point_events], ?_⟩
  intro k hk
  have hk2 : k < (change_point_events events cps).length := by
    simpa [change_point_events] using hk
  have hget : (change_point_events events cps).get ⟨k, hk2⟩ =
      associateCp events (cps.get ⟨k, hk⟩) := by
    simp [change_point_events]
  refine ⟨hk2, hget, ?_, ?_⟩
  · intro hnone
    have hfilter : events.filter (inWindow (cps.get ⟨k, hk⟩)) = [] := by
      apply List.filter_eq_nil_iff.mpr
      intro e he
      rw [hnone e he]
      exact Bool.false_ne_true
    rw [hget]
    exact associateCp_of_filter_nil events _ hfilter
  · intro e0 he0 hw0
    have hmem : e0 ∈ events.filter (inWindow (cps.get ⟨k, hk⟩)) :=
      List.mem_filter.mpr ⟨he0, hw0⟩
    have hne : events.filter (inWindow (cps.get ⟨k, hk⟩)) ≠ [] := by
      intro hnil; rw [hnil] at hmem; simp at hmem
    have hne2 : (events.filter (inWindow (cps.get ⟨k, hk⟩))).head? ≠ none :=
      fun h => hne (List.head?_eq_none_iff.mp h)
    obtain ⟨a, ha⟩ := Option.ne_none_iff_exists.mp hne2
    have ha' : (events.filter (inWindow (cps.get ⟨k, hk⟩))).head? = some a :=
      ha.symm
    have hamem : a ∈ events.filter (inWindow (cps.get ⟨k, hk⟩)) :=
      head_mem_of_head?_eq ha'
    have haev : a ∈ events := (List.mem_filter.mp hamem).1
    have haw : inWindow (cps.get ⟨k, hk⟩) a = true :=
      (List.mem_filter.mp hamem).2
    refine ⟨a, haev, haw, ?_, ?_⟩
    · rw [hget]
      exact associateCp_of_head?_some events _ a ha'
    · intro e2 he2 hw2
      have hps : (events.filter (inWindow (cps.get ⟨k, hk⟩))).Pairwise
          (fun x y => x.eventDate ≤ y.eventDate) := hsorted.filter _
      exact head_le_of_sorted hps ha' e2 (List.mem_filter.mpr ⟨he2, hw2⟩)

/-- Witness for `change_point_events_spec`: a concrete sorted two-event
table and two change points, one with a qualifying event, one without. -/
theorem change_point_events_spec_witness :
    ([⟨10, "A"⟩, ⟨40, "B"⟩] : List Event).Pairwise
      (fun x y => x.eventDate ≤ y.eventDate) ∧
    ((change_point_events [⟨10, "A"⟩, ⟨40, "B"⟩] [12, 100]).length =
        [(12 : ℤ), 100].length ∧
     ∀ (k : ℕ) (hk : k < [(12 : ℤ), 100].length),
      ∃ hk2 : k < (change_point_events [⟨10, "A"⟩, ⟨40, "B"⟩] [12, 100]).length,
        (change_point_events [⟨10, "A"⟩, ⟨40, "B"⟩] [12, 100]).get ⟨k, hk2⟩ =
          associateCp [⟨10, "A"⟩, ⟨40, "B"⟩] ([(12 : ℤ), 100].get ⟨k, hk⟩) ∧
        ((∀ e ∈ ([⟨10, "A"⟩, ⟨40, "B"⟩] : List Event),
            inWindow ([(12 : ℤ), 100].get ⟨k, hk⟩) e = false) →
          (change_point_events [⟨10, "A"⟩, ⟨40, "B"⟩] [12, 100]).get ⟨k, hk2⟩ =
            noEventRecord ([(12 : ℤ), 100].get ⟨k, hk⟩)) ∧
        (∀ e0 ∈ ([⟨10, "A"⟩, ⟨40, "B"⟩] : List Event),
            inWindow ([(12 : ℤ), 100].get ⟨k, hk⟩) e0 = true →
          ∃ e ∈ ([⟨10, "A"⟩, ⟨40, "B"⟩] : List Event),
            inWindow ([(12 : ℤ), 100].get ⟨k, hk⟩) e = true ∧
            (change_point_events [⟨10, "A"⟩, ⟨40, "B"⟩] [12, 100]).get ⟨k, hk2⟩ =
              { changePointDate := [(12 : ℤ), 100].get ⟨k, hk⟩,
                eventDate := some e.eventDate,
                eventDescription := e.eventDescription } ∧
            ∀ e2 ∈ ([⟨10, "A"⟩, ⟨40, "B"⟩] : List Event),
              inWindow ([(12 : ℤ), 100].get ⟨k, hk⟩) e2 = true →
              e.eventDate ≤ e2.eventDate)) :=
  ⟨by decide, change_point_events_spec [⟨10, "A"⟩, ⟨40, "B"⟩] [12, 100]
    (by decide)⟩

/-- C3.  The window test is inclusive at exactly ±7 days: an event dated
exactly 7 days from the change point passes the filter, and one dated
exactly 8 days away fails it. -/
theorem inWindow_boundary (cp : ℤ) (e : Event) :
    ((e.eventDate - cp).natAbs = 7 → inWindow cp e = true) ∧
    ((e.eventDate - cp).natAbs = 8 → inWindow cp e = false) := by
  constructor
  · intro h
    simp only [inWindow, decide_eq_true_eq]
    omega
  · intro h
    simp only [inWindow, decide_eq_false_iff_not]
    omega

/-- Witness for `inWindow_boundary` at a change point on day 0 with
events on days 7 and 8. -/
theorem inWindow_boundary_witness :
    inWindow 0 ⟨7, "seven"⟩ = true ∧ inWindow 0 ⟨8, "eight"⟩ = false :=
  ⟨(inWindow_boundary 0 ⟨7, "seven"⟩).1 (by decide),
   (inWindow_boundary 0 ⟨8, "eight"⟩).2 (by decide)⟩

/-! ### Posterior summarizer: modal break indices (lines 140-142)

`tau_modes = [int(np.bincount(draws_i).argmax()) for i in range(K)]` and
`change_point_dates = [dates[tau + 1] for tau in tau_modes]`.  The pooled
post-tuning draws of one sorted break-index parameter are a `List ℕ`.
`np.bincount` raises on an empty array; here the embeddings are total and
the theorems carry the (always true in the pipeline) non-emptiness
implicitly through the count inequalities, which hold for all inputs. -/

/-- Maximum of a list of naturals (`0` on the empty list). -/
def listMax (l : List ℕ) : ℕ := l.foldr max 0

/-- `np.bincount`: entry `v` counts the occurrences of the value `v`,
for `v = 0, ..., max`. -/
def bincount (l : List ℕ) : List ℕ :=
  (List.range (listMax l + 1)).map (fun v => l.count v)

/-- `np.argmax`: the index of the first occurrence of the maximum. -/
def argmax (l : List ℕ) : ℕ := l.indexOf (listMax l)

/-- `int(np.bincount(draws).argmax())`: the most frequent value among the
draws (the first such value when several are tied). -/
def modeOf (draws : List ℕ) : ℕ := argmax (bincount draws)

/-- `tau_modes`: one modal index per break-index parameter. -/
def tau_modes (tauDraws : List (List ℕ)) : List ℕ :=
  tauDraws.map modeOf

/-- `change_point_dates = [dates[tau + 1] for tau in tau_modes]` (the
`+ 1` compensates for the log-return series being one element shorter;
out-of-range access, which raises in the source, is totalized with a
junk value and excluded by the theorems' bounds hypotheses). -/
def change_point_dates (dates : List ℤ) (modes : List ℕ) : List ℤ :=
  modes.map (fun tau => dates.getD (tau + 1) 0)

theorem le_listMax {l : List ℕ} {x : ℕ} (hx : x ∈ l) : x ≤ listMax l := by
  induction l with
  | nil => simp at hx
  | cons a t ih =>
    rcases List.mem_cons.mp hx with h | h
    · subst h; exact le_max_left _ _
    · exact le_trans (ih h) (le_max_right _ _)

theorem length_bincount (l : List ℕ) :
    (bincount l).length = listMax l + 1 := by
  simp [bincount]

theorem bincount_get (l : List ℕ) (v : ℕ) (hv : v < (bincount l).length) :
    (bincount l).get ⟨v, hv⟩ = l.count v := by
  simp [bincount]

theorem count_eq_zero_of_listMax_lt (l : List ℕ) (v : ℕ)
    (hv : listMax l < v) : l.count v = 0 := by
  apply List.count_eq_zero.mpr
  intro hmem
  exact absurd (le_listMax hmem) (not_le.mpr hv)

theorem indexOf_le_of_get_eq {α : Type} [DecidableEq α] :
    ∀ (l : List α) (a : α) (j : ℕ) (hj : j < l.length),
      l.get ⟨j, hj⟩ = a → l.indexOf a ≤ j
  | [], _, _, hj, _ => by simp at hj
  | x :: t, a, 0, _, h => by
    simp only [List.get] at h
    subst h
    simp [List.indexOf_cons_self]
  | x :: t, a, (j + 1), hj, h => by
    by_cases hxa : x = a
    · subst hxa
      simp [List.indexOf_cons_self]
    · have := indexOf_le_of_get_eq t a j (by simpa using hj) (by simpa using h)
      rw [List.indexOf_cons_ne _ hxa]
      omega

theorem bincount_ne_nil (l : List ℕ) : bincount l ≠ [] := by
  intro h
  have := length_bincount l
  rw [h] at this
  simp at this

theorem listMax_mem : ∀ {l : List ℕ}, l ≠ [] → listMax l ∈ l := by
  intro l
  induction l with
  | nil => intro h; exact absurd rfl h
  | cons a t ih =>
    intro _
    cases t with
    | nil => simp [listMax]
    | cons b t2 =>
      have hmem := ih (by simp)
      have hfold : listMax (a :: b :: t2) = max a (listMax (b :: t2)) := rfl
      rcases max_choice a (listMax (b :: t2)) with hc | hc
      · rw [hfold, hc]; exact List.mem_cons_self _ _
      · rw [hfold, hc]; exact List.mem_cons_of_mem _ hmem

theorem modeOf_lt_length_bincount (l : List ℕ) :
    modeOf l < (bincount l).length :=
  List.indexOf_lt_length.mpr (listMax_mem (bincount_ne_nil l))

theorem get_modeOf_eq_listMax (l : List ℕ) :
    (bincount l).get ⟨modeOf l, modeOf_lt_length_bincount l⟩ =
      listMax (bincount l) :=
  List.indexOf_get _

/-- The count of the extracted mode equals the largest bin. -/
theorem count_modeOf_eq_listMax (l : List ℕ) :
    l.count (modeOf l) = listMax (bincount l) := by
  have h := get_modeOf_eq_listMax l
  rw [bincount_get] at h
  exact h

/-- The extracted mode is a most frequent value among the draws. -/
theorem count_le_count_modeOf (draws : List ℕ) (v : ℕ) :
    draws.count v ≤ draws.count (modeOf draws) := by
  rw [count_modeOf_eq_listMax]
  by_cases hv : v < (bincount draws).length
  · have h := bincount_get draws v hv
    calc draws.count v = (bincount draws).get ⟨v, hv⟩ := h.symm
      _ ≤ listMax (bincount draws) := le_listMax (List.get_mem _ _ _)
  · have hgt : listMax draws < v := by
      have := length_bincount draws
      omega
    rw [count_eq_zero_of_listMax_lt draws v hgt]
    exact Nat.zero_le _

/-- C4.  The summarizer maps each break-index parameter to the mode (most
frequent discrete value) of its pooled draws — a value whose count is
maximal, not a mean — and converts each modal index `i` to the calendar
date stored at position `i + 1` of the price-series date array. -/
theorem tau_modes_spec (tauDraws : List (List ℕ)) (dates : List ℤ)
    (hb : ∀ t ∈ tauDraws, modeOf t + 1 < dates.length) :
    (change_point_dates dates (tau_modes tauDraws)).length =
      tauDraws.length ∧
    ∀ (k : ℕ) (hk : k < tauDraws.length),
      (∀ v : ℕ, (tauDraws.get ⟨k, hk⟩).count v ≤
        (tauDraws.get ⟨k, hk⟩).count (modeOf (tauDraws.get ⟨k, hk⟩))) ∧
      ∃ h2 : modeOf (tauDraws.get ⟨k, hk⟩) + 1 < dates.length,
        (change_point_dates dates (tau_modes tauDraws)).getD k 0 =
          dates.get ⟨modeOf (tauDraws.get ⟨k, hk⟩) + 1, h2⟩ := by
  refine ⟨by simp [change_point_dates, tau_modes], ?_⟩
  intro k hk
  have h2 : modeOf (tauDraws.get ⟨k, hk⟩) + 1 < dates.length :=
    hb _ (List.get_mem _ _ _)
  refine ⟨count_le_count_modeOf _, h2, ?_⟩
  have hlen : k < (change_point_dates dates (tau_modes tauDraws)).length := by
    simpa [change_point_dates, tau_modes] using hk
  simp only [List.get_eq_getElem] at h2
  rw [List.getD_eq_getElem _ _ hlen]
  simp only [change_point_dates, tau_modes, List.get_eq_getElem,
    List.getElem_map]
  rw [List.getD_eq_getElem _ _ h2]

/-- Witness for `tau_modes_spec` on two concrete draw pools and a
four-date calendar. -/
theorem tau_modes_spec_witness :
    (∀ t ∈ ([[0, 1, 1], [2]] : List (List ℕ)),
      modeOf t + 1 < ([100, 200, 300, 400] : List ℤ).length) ∧
    ((change_point_dates [100, 200, 300, 400]
        (tau_modes [[0, 1, 1], [2]])).length =
      ([[0, 1, 1], [2]] : List (List ℕ)).length ∧
     ∀ (k : ℕ) (hk : k < ([[0, 1, 1], [2]] : List (List ℕ)).length),
      (∀ v : ℕ,
        (([[0, 1, 1], [2]] : List (List ℕ)).get ⟨k, hk⟩).count v ≤
        (([[0, 1, 1], [2]] : List (List ℕ)).get ⟨k, hk⟩).count
          (modeOf (([[0, 1, 1], [2]] : List (List ℕ)).get ⟨k, hk⟩))) ∧
      ∃ h2 : modeOf (([[0, 1, 1], [2]] : List (List ℕ)).get ⟨k, hk⟩) + 1 <
          ([100, 200, 300, 400] : List ℤ).length,
        (change_point_dates [100, 200, 300, 400]
            (tau_modes [[0, 1, 1], [2]])).getD k 0 =
          ([100, 200, 300, 400] : List ℤ).get
            ⟨modeOf (([[0, 1, 1], [2]] : List (List ℕ)).get ⟨k, hk⟩) + 1,
              h2⟩) :=
  ⟨by decide, tau_modes_spec [[0, 1, 1], [2]] [100, 200, 300, 400]
    (by decide)⟩

/-- C9.  Tie-breaking of the modal-index extraction: the extracted mode
is itself tied for the maximal frequency, and it is the smallest value
among all values of maximal frequency (`argmax` returns the first maximal
bin), so the extraction is a deterministic total function of the draws
even under ties. -/
theorem modeOf_tie_break (draws : List ℕ) (v : ℕ)
    (hmax : ∀ w : ℕ, draws.count w ≤ draws.count v) :
    draws.count (modeOf draws) = draws.count v ∧ modeOf draws ≤ v := by
  have h1 : draws.count v ≤ draws.count (modeOf draws) :=
    count_le_count_modeOf draws v
  have h2 : draws.count (modeOf draws) ≤ draws.count v := hmax _
  have heq : draws.count (modeOf draws) = draws.count v := le_antisymm h2 h1
  refine ⟨heq, ?_⟩
  by_contra hlt
  push_neg at hlt
  have hvlt : v < (bincount draws).length :=
    lt_trans hlt (modeOf_lt_length_bincount draws)
  have hgetv : (bincount draws).get ⟨v, hvlt⟩ = listMax (bincount draws) := by
    rw [bincount_get, ← heq, count_modeOf_eq_listMax]
  have hle : modeOf draws ≤ v :=
    indexOf_le_of_get_eq (bincount draws) (listMax (bincount draws))
      v hvlt hgetv
  exact absurd hle (not_le.mpr hlt)

/-- Witness for `modeOf_tie_break` on the draws `[2, 2, 5, 5]`, where the
values 2 and 5 are tied with two occurrences each and the extraction
returns 2. -/
theorem modeOf_tie_break_witness :
    (∀ w : ℕ, ([2, 2, 5, 5] : List ℕ).count w ≤
      ([2, 2, 5, 5] : List ℕ).count 5) ∧
    (([2, 2, 5, 5] : List ℕ).count (modeOf [2, 2, 5, 5]) =
      ([2, 2, 5, 5] : List ℕ).count 5 ∧ modeOf [2, 2, 5, 5] ≤ 5) :=
  ⟨fun w => le_trans (count_le_count_modeOf [2, 2, 5, 5] w) (by decide),
   modeOf_tie_break [2, 2, 5, 5] 5
    (fun w => le_trans (count_le_count_modeOf [2, 2, 5, 5] w) (by decide))⟩

/-! ### Posterior summarizer: per-transition impacts (lines 148-152) -/

/-- `n_change_points = 3` in the script. -/
def n_change_points : ℕ := 3

/-- `(np.exp(mu_means[i+1]) - np.exp(mu_means[i])) / np.exp(mu_means[i])
* 100`, the percentage price change implied by a segment transition. -/
noncomputable def price_change_percent (muBefore muAfter : ℝ) : ℝ :=
  (Real.exp muAfter - Real.exp muBefore) / Real.exp muBefore * 100

/-- The impact loop `for i in range(n_change_points)` over the posterior
segment means (out-of-range access, which raises in the source, is
totalized with a junk value and excluded by the length hypothesis). -/
noncomputable def segment_impacts (mu_means : List ℝ) : List ℝ :=
  (List.range n_change_points).map
    (fun i => price_change_percent (mu_means.getD i 0) (mu_means.getD (i + 1) 0))

/-- C5.  Given the `K + 1` posterior segment means, the pipeline reports
exactly one impact per consecutive segment transition (`K` of them), and
the `i`-th impact equals
`(exp(mu_after) - exp(mu_before)) / exp(mu_before) * 100` with
`mu_before = mu_means[i]` and `mu_after = mu_means[i+1]`. -/
theorem segment_impacts_spec (mu_means : List ℝ)
    (_hlen : mu_means.length = n_change_points + 1) :
    (segment_impacts mu_means).length = n_change_points ∧
    ∀ (i : ℕ) (hi : i < (segment_impacts mu_means).length),
      (segment_impacts mu_means).get ⟨i, hi⟩ =
        (Real.exp (mu_means.getD (i + 1) 0) - Real.exp (mu_means.getD i 0)) /
          Real.exp (mu_means.getD i 0) * 100 := by
  refine ⟨by simp [segment_impacts], ?_⟩
  intro i hi
  simp [segment_impacts, price_change_percent]

/-- Witness for `segment_impacts_spec` at the zero mean vector of length
`n_change_points + 1 = 4`. -/
theorem segment_impacts_spec_witness :
    ([(0 : ℝ), 0, 0, 0].length = n_change_points + 1) ∧
    ((segment_impacts [(0 : ℝ), 0, 0, 0]).length = n_change_points ∧
     ∀ (i : ℕ) (hi : i < (segment_impacts [(0 : ℝ), 0, 0, 0]).length),
      (segment_impacts [(0 : ℝ), 0, 0, 0]).get ⟨i, hi⟩ =
        (Real.exp ([(0 : ℝ), 0, 0, 0].getD (i + 1) 0) -
            Real.exp ([(0 : ℝ), 0, 0, 0].getD i 0)) /
          Real.exp ([(0 : ℝ), 0, 0, 0].getD i 0) * 100) :=
  ⟨rfl, segment_impacts_spec [0, 0, 0, 0] rfl⟩

/-! ### Series preprocessor: loading (lines 47-50)

`pd.to_datetime(df['Date'], format='%d-%b-%y')` parses every date with
the fixed `%d-%b-%y` format and raises on the first unparseable value;
`df.sort_values('Date')` then sorts ascending by date.  Parsing failure
(an exception in the source) is modelled as `none`.  The sort is modelled
with an insertion sort on the date key; the source uses the library's
default sort, which orders by date but does not document its behaviour on
equal dates; the insertion sort used here agrees with it on any table
with distinct dates, and no theorem below depends on tie order.  Dates are
encoded as the natural number `year * 10000 + month * 100 + day`, whose
numeric order is chronological order. -/

/-- Splitting a character list on a separator character, with the
semantics of the library's string split (the empty input yields one empty
field). -/
def splitSep (sep : Char) : List Char → List (List Char)
  | [] => [[]]
  | c :: rest =>
    let r := splitSep sep rest
    if c = sep then [] :: r
    else
      match r with
      | [] => [[c]]
      | g :: gs => (c :: g) :: gs

/-- Value of a decimal digit character. -/
def digitVal (c : Char) : Option ℕ :=
  if '0' ≤ c ∧ c ≤ '9' then some (c.toNat - Char.toNat '0') else none

/-- Accumulating decimal parse of a digit string. -/
def parseNatAux : ℕ → List Char → Option ℕ
  | acc, [] => some acc
  | acc, c :: rest =>
    match digitVal c with
    | some d => parseNatAux (acc * 10 + d) rest
    | none => none

/-- Decimal parse of a non-empty all-digit field. -/
def parseNatDigits : List Char → Option ℕ
  | [] => none
  | l => parseNatAux 0 l

/-- The twelve month abbreviations accepted by `%b` (compared
case-insensitively). -/
def monthAbbrevs : List (List Char) :=
  (["jan", "feb", "mar", "apr", "may", "jun",
    "jul", "aug", "sep", "oct", "nov", "dec"]).map String.data

/-- A one- or two-digit numeric field (`%d` and `%y` accept at most two
digits). -/
def parseTwoDigit (l : List Char) : Option ℕ :=
  if l.length ≤ 2 then parseNatDigits l else none

/-- `%b`: month abbreviation to month number 1-12. -/
def parseMonth (l : List Char) : Option ℕ :=
  let i := monthAbbrevs.indexOf (l.map Char.toLower)
  if i < 12 then some (i + 1) else none

/-- Gregorian leap-year rule. -/
def isLeap (y : ℕ) : Bool :=
  (y % 4 == 0 && y % 100 != 0) || (y % 400 == 0)

/-- Days in a month, used by the parser to reject out-of-range days. -/
def daysInMonth (y m : ℕ) : ℕ :=
  if m = 2 then (if isLeap y then 29 else 28)
  else if m = 4 ∨ m = 6 ∨ m = 9 ∨ m = 11 then 30
  else 31

/-- `%y`: two-digit year with the POSIX pivot (00-68 → 2000-2068,
69-99 → 1969-1999). -/
def expandYear (yy : ℕ) : ℕ :=
  if yy ≤ 68 then 2000 + yy else 1900 + yy

/-- `pd.to_datetime(_, format='%d-%b-%y')` on one cell: split on the
literal dashes, parse day, month abbreviation and two-digit year, and
validate the day against the month; `none` models the raised
`ValueError`. -/
def parseDate (s : String) : Option ℕ :=
  match splitSep '-' s.data with
  | [dStr, mStr, yStr] =>
    match parseTwoDigit dStr, parseMonth mStr, parseTwoDigit yStr with
    | some d, some m, some yy =>
        let y := expandYear yy
        if 1 ≤ d ∧ d ≤ daysInMonth y m then
          some (y * 10000 + m * 100 + d)
        else none
    | _, _, _ => none
  | _ => none

/-- Elementwise date parsing of the `Date` column; the first failure
aborts the whole conversion, as `pd.to_datetime` raises. -/
def parseRows : List (String × ℚ) → Option (List (ℕ × ℚ))
  | [] => some []
  | r :: rest =>
    match parseDate r.1, parseRows rest with
    | some d, some t => some ((d, r.2) :: t)
    | _, _ => none

/-- Lines 47-49 of the script: parse all dates, then sort ascending by
date.  Note that no check whatsoever is applied to the `Price` column. -/
def preprocess (rows : List (String × ℚ)) : Option (List (ℕ × ℚ)) :=
  (parseRows rows).map
    (fun parsed => parsed.insertionSort (fun a b => a.1 ≤ b.1))

/-- C7 (amended).  The loader fails before modeling begins exactly when
some row's date does not parse under `%d-%b-%y`; the prices play no role:
rows with non-positive prices are accepted whenever their dates parse. -/
theorem preprocess_none_iff_bad_date (rows : List (String × ℚ)) :
    preprocess rows = none ↔ ∃ r ∈ rows, parseDate r.1 = none := by
  unfold preprocess
  rw [Option.map_eq_none']
  induction rows with
  | nil => simp [parseRows]
  | cons r rest ih =>
    constructor
    · intro h
      unfold parseRows at h
      cases hd : parseDate r.1 with
      | none => exact ⟨r, List.mem_cons_self _ _, hd⟩
      | some d =>
        cases ht : parseRows rest with
        | none =>
          obtain ⟨r2, hr2, hbad⟩ := ih.mp ht
          exact ⟨r2, List.mem_cons_of_mem _ hr2, hbad⟩
        | some t =>
          rw [hd, ht] at h
          simp at h
    · rintro ⟨r2, hr2, hbad⟩
      unfold parseRows
      rcases List.mem_cons.mp hr2 with h | h
      · subst h
        rw [hbad]
      · cases hd : parseDate r.1 with
        | none => rfl
        | some d => rw [ih.mpr ⟨r2, h, hbad⟩]

/-- Counterexample to C7 as stated: a table whose single row has a
perfectly parseable date and the non-positive price `-5` is accepted by
the loader (no error, preprocessing succeeds), so non-positive prices do
not cause a fail-fast rejection. -/
theorem preprocess_accepts_nonpositive_price :
    ((-5 : ℚ) < 0) ∧
    preprocess [("01-Jan-20", (-5 : ℚ))] = some [(20200101, -5)] := by
  constructor
  · norm_num
  · decide

/-! ### Convergence diagnostics (lines 131-137) and the persisted result

The script prints `az.summary(trace, ...)` (which contains the `r_hat`
potential-scale-reduction column) and saves trace plots, then extracts
point estimates and writes `change_points.csv` unconditionally.  The
`Posterior` record carries the draws together with the per-parameter
`r_hat` diagnostics that the summary makes available; the pipeline below
is the script's path from the fitted posterior to the persisted
change-point table. -/

/-- A fitted posterior as the script consumes it: pooled sorted
break-index draws per parameter, posterior segment means, and the
per-parameter potential-scale-reduction diagnostics reported by the
summary. -/
structure Posterior where
  tauDraws : List (List ℕ)
  muMeans : List ℝ
  rhat : List ℚ

/-- The script's path from fitted posterior to the persisted
`change_points.csv` table: modal break indices → change-point dates →
event association.  This is the entire durable result of a run. -/
def pipeline_change_points (events : List Event) (dates : List ℤ)
    (post : Posterior) : List CPEventRecord :=
  change_point_events events (change_point_dates dates (tau_modes post.tauDraws))

/-- C8 (amended).  The persisted result is computed unconditionally from
the draws and is identical whatever the potential-scale-reduction
diagnostics say; the result rows (change-point date, event date, event
description) carry no warning field, so non-convergence is never flagged
in the result. -/
theorem pipeline_independent_of_rhat (events : List Event) (dates : List ℤ)
    (tauDraws : List (List ℕ)) (muMeans : List ℝ) (r1 r2 : List ℚ) :
    pipeline_change_points events dates ⟨tauDraws, muMeans, r1⟩ =
      pipeline_change_points events dates ⟨tauDraws, muMeans, r2⟩ := rfl

/-- Counterexample to C8 as stated: a posterior whose every
potential-scale-reduction statistic is 3/2 > 1.1 yields a result
indistinguishable from the same posterior with all diagnostics at the
ideal value 1 — no non-convergence warning is attached to the result. -/
theorem no_convergence_flag_counterexample :
    ((11 : ℚ) / 10 < 3 / 2) ∧
    pipeline_change_points [] [0, 1, 2]
        ⟨[[0]], [], [3 / 2, 3 / 2, 3 / 2]⟩ =
      pipeline_change_points [] [0, 1, 2] ⟨[[0]], [], [1, 1, 1]⟩ := by
  constructor
  · norm_num
  · rfl

/-! ### Backend endpoint `/api/change_points` (`backend/app.py` lines 9-14)

`pd.read_csv` turns empty cells of the persisted change-point table into
NaN (`none` here); `df.fillna('N/A')` replaces every NaN with the string
`'N/A'` before `to_dict(orient='records')` serializes the rows. -/

/-- One row of `change_points.csv` as read back by the backend; `none`
models a NaN produced by an empty cell. -/
structure CsvRow where
  changePointDate : Option String
  eventDate : Option String
  eventDescription : Option String
  deriving DecidableEq, Repr

/-- `df.fillna('N/A')` on one row. -/
def fillnaRow (r : CsvRow) : CsvRow :=
  { changePointDate := some (r.changePointDate.getD "N/A"),
    eventDate := some (r.eventDate.getD "N/A"),
    eventDescription := some (r.eventDescription.getD "N/A") }

/-- The body of `get_change_points`: read table, fill NaN with `'N/A'`,
serialize the rows in order. -/
def get_change_points_api (table : List CsvRow) : List CsvRow :=
  table.map fillnaRow

/-- C10.  For every input table, the endpoint returns one record per row,
every field of every returned record is present (non-null), and each
field is the original value when present or the string `'N/A'` when the
cell was missing. -/
theorem get_change_points_api_no_nulls (table : List CsvRow) :
    (get_change_points_api table).length = table.length ∧
    (∀ r ∈ get_change_points_api table,
      r.changePointDate.isSome = true ∧ r.eventDate.isSome = true ∧
        r.eventDescription.isSome = true) ∧
    ∀ (k : ℕ) (hk : k < table.length),
      ∃ hk2 : k < (get_change_points_api table).length,
        (get_change_points_api table).get ⟨k, hk2⟩ =
          { changePointDate :=
              some ((table.get ⟨k, hk⟩).changePointDate.getD "N/A"),
            eventDate := some ((table.get ⟨k, hk⟩).eventDate.getD "N/A"),
            eventDescription :=
              some ((table.get ⟨k, hk⟩).eventDescription.getD "N/A") } := by
  refine ⟨by simp [get_change_points_api], ?_, ?_⟩
  · intro r hr
    obtain ⟨r0, _, hr0⟩ := List.mem_map.mp hr
    subst hr0
    simp [fillnaRow]
  · intro k hk
    have hk2 : k < (get_change_points_api table).length := by
      simpa [get_change_points_api] using hk
    refine ⟨hk2, ?_⟩
    simp [get_change_points_api, fillnaRow]

/-- Witness for `get_change_points_api_no_nulls` on a one-row table whose
event-date cell is missing. -/
theorem get_change_points_api_no_nulls_witness :
    ((get_change_points_api [⟨some "2020-03-08", none, some "OPEC+"⟩]).length =
      ([⟨some "2020-03-08", none, some "OPEC+"⟩] : List CsvRow).length ∧
    (∀ r ∈ get_change_points_api [⟨some "2020-03-08", none, some "OPEC+"⟩],
      r.changePointDate.isSome = true ∧ r.eventDate.isSome = true ∧
        r.eventDescription.isSome = true) ∧
    ∀ (k : ℕ)
      (hk : k < ([⟨some "2020-03-08", none, some "OPEC+"⟩] : List CsvRow).length),
      ∃ hk2 : k <
          (get_change_points_api [⟨some "2020-03-08", none, some "OPEC+"⟩]).length,
        (get_change_points_api [⟨some "2020-03-08", none, some "OPEC+"⟩]).get
            ⟨k, hk2⟩ =
          { changePointDate :=
              some ((([⟨some "2020-03-08", none, some "OPEC+"⟩] : List CsvRow).get
                ⟨k, hk⟩).changePointDate.getD "N/A"),
            eventDate :=
              some ((([⟨some "2020-03-08", none, some "OPEC+"⟩] : List CsvRow).get
                ⟨k, hk⟩).eventDate.getD "N/A"),
            eventDescription :=
              some ((([⟨some "2020-03-08", none, some "OPEC+"⟩] : List CsvRow).get
                ⟨k, hk⟩).eventDescription.getD "N/A") }) :=
  get_change_points_api_no_nulls [⟨some "2020-03-08", none, some "OPEC+"⟩]

end BrentCP
